import Mathlib

/-!
# Verification of the slog-journal exporter

A shallow embedding, in Lean 4, of the systemd-journal structured-log
exporter (package `slogjournal`): the key/value wire encoder
(`appendKV`), the attribute flattener (`appendAttr`), the
level-to-priority mapper (`levelToPriority`), the copy-on-extend
handler derivations (`WithAttrs` / `WithGroup`, over an explicit model
of Go slice aliasing), the datagram writer with its large-payload
fallback (`journalWrite`), and the lazily-initialised debug leveler
(`LevelVar.Level`).

Go byte slices and strings are modelled as `List Nat` (each element a
byte value); machine integers are `Nat`/`Int` with explicit `% 2 ^ 64`
where overflow matters.  Fallible system calls are modelled by an
explicit environment record naming the outcome of each call.
-/

/-! ## Bytes and little-endian lengths -/

/-- The little-endian base-256 digits of `n`, `w` bytes wide (the wire
encoding of a `w`-byte unsigned integer; encodes `n % 256 ^ w`). -/
def leBytes : Nat → Nat → List Nat
  | 0, _ => []
  | w + 1, n => n % 256 :: leBytes w (n / 256)

/-- Model of Go `binary.LittleEndian.AppendUint64 b n`: append the
8-byte little-endian encoding of `n` to `b`. -/
def appendUint64LE (b : List Nat) (n : Nat) : List Nat :=
  b ++ leBytes 8 n

/-- Little-endian base-256 value of a byte list (the decoding direction
for `leBytes`). -/
def decodeLE : List Nat → Nat
  | [] => 0
  | c :: rest => c % 256 + 256 * decodeLE rest

/-- Model of Go `bytes.IndexByte v c`: the index of the first
occurrence of byte `c` in `v`, or `-1` if absent. -/
def indexByte (v : List Nat) (c : Nat) : Int :=
  match v with
  | [] => -1
  | b :: rest =>
    if b = c then 0
    else
      let r := indexByte rest c
      if r = -1 then -1 else r + 1

theorem indexByte_eq_neg_one_or_nonneg (v : List Nat) (c : Nat) :
    indexByte v c = -1 ∨ 0 ≤ indexByte v c := by
  induction v with
  | nil => left; rfl
  | cons b rest ih =>
    by_cases hb : b = c
    · right; simp [indexByte, hb]
    · by_cases hr : indexByte rest c = -1
      · left; simp [indexByte, hb, hr]
      · right
        rcases ih with h | h
        · exact absurd h hr
        · simp only [indexByte, if_neg hb, if_neg hr]
          omega

theorem indexByte_ne_neg_one_iff_mem (v : List Nat) (c : Nat) :
    indexByte v c ≠ -1 ↔ c ∈ v := by
  induction v with
  | nil => simp [indexByte]
  | cons b rest ih =>
    by_cases hb : b = c
    · simp [indexByte, hb]
    · by_cases hr : indexByte rest c = -1
      · have hnotmem : c ∉ rest := fun hm => (ih.mpr hm) hr
        simp only [indexByte, if_neg hb, hr, if_pos rfl]
        have hcb : ¬c = b := fun h => hb h.symm
        simp [List.mem_cons, hnotmem, hcb]
      · have hmem : c ∈ rest := ih.mp hr
        have hge : 0 ≤ indexByte rest c := by
          rcases indexByte_eq_neg_one_or_nonneg rest c with h | h
          · exact absurd h hr
          · exact h
        simp only [indexByte, if_neg hb, if_neg hr]
        constructor
        · intro _; exact List.mem_cons_of_mem b hmem
        · intro _; omega

/-! ## The KV encoder (`Handler.appendKV`, src/journal.go lines 203-216)

Source:
```
func (h *Handler) appendKV(b []byte, k string, v []byte) []byte {
    if bytes.IndexByte(v, '\n') != -1 {
        b = append(b, k...)
        b = append(b, '\n')
        b = binary.LittleEndian.AppendUint64(b, uint64(len(v)))
        b = append(b, v...)
    } else {
        b = append(b, k...)
        b = append(b, '=')
        b = append(b, v...)
        b = append(b, '\n')
    }
    return b
}
```
Byte 10 is the line feed, byte 61 is the equals sign. -/

def appendKV (b k v : List Nat) : List Nat :=
  if indexByte v 10 ≠ -1 then
    appendUint64LE (b ++ k ++ [10]) v.length ++ v
  else
    b ++ k ++ [61] ++ v ++ [10]

/-! ## The priority mapper (`levelToPriority`, src/journal.go lines 50-71)

`slog.Level` is an integer: Debug = -4, Info = 0, Warn = 4, Error = 8.
The package defines Notice = Info + 1, Critical = Error + 1,
Alert = Error + 2, Emergency = Error + 3.  `syslog.Priority` codes:
EMERG = 0, ALERT = 1, CRIT = 2, ERR = 3, WARNING = 4, NOTICE = 5,
INFO = 6, DEBUG = 7. -/

def LevelDebug : Int := -4
def LevelInfo : Int := 0
def LevelNotice : Int := 1
def LevelWarn : Int := 4
def LevelError : Int := 8
def LevelCritical : Int := 9
def LevelAlert : Int := 10
def LevelEmergency : Int := 11

def LOG_EMERG : Int := 0
def LOG_ALERT : Int := 1
def LOG_CRIT : Int := 2
def LOG_ERR : Int := 3
def LOG_WARNING : Int := 4
def LOG_NOTICE : Int := 5
def LOG_INFO : Int := 6
def LOG_DEBUG : Int := 7

/-- Model of `levelToPriority` (src/journal.go lines 50-71): a `switch`
on exact level values with a `default` branch returning `LOG_INFO`. -/
def levelToPriority (l : Int) : Int :=
  if l = LevelDebug then LOG_DEBUG
  else if l = LevelInfo then LOG_INFO
  else if l = LevelNotice then LOG_NOTICE
  else if l = LevelWarn then LOG_WARNING
  else if l = LevelError then LOG_ERR
  else if l = LevelCritical then LOG_CRIT
  else if l = LevelAlert then LOG_ALERT
  else if l = LevelEmergency then LOG_EMERG
  else LOG_INFO

/-- Modelled from the spec (§4.4), for comparison with the code's
`levelToPriority`: map a severity to the priority of the nearest
standard level at or below it, defaulting to info below the lowest
standard level. -/
def specLevelToPriority (l : Int) : Int :=
  if l ≥ LevelEmergency then LOG_EMERG
  else if l ≥ LevelAlert then LOG_ALERT
  else if l ≥ LevelCritical then LOG_CRIT
  else if l ≥ LevelError then LOG_ERR
  else if l ≥ LevelWarn then LOG_WARNING
  else if l ≥ LevelNotice then LOG_NOTICE
  else if l ≥ LevelInfo then LOG_INFO
  else if l ≥ LevelDebug then LOG_DEBUG
  else LOG_INFO

/-! ## Claim theorems: C1 and C5 -/

/-- Claim C1: `appendKV` appends the inline form (key, `=`, raw value
bytes, trailing line feed) exactly when the value contains no line-feed
byte, and the binary form (key, a line feed, the 8-byte little-endian
length of the value, then the raw value bytes with no trailing
delimiter) exactly when the value contains at least one line-feed
byte. -/
theorem appendKV_linefeed_forms (b k v : List Nat) :
    (10 ∉ v → appendKV b k v = b ++ k ++ [61] ++ v ++ [10]) ∧
    (10 ∈ v → appendKV b k v = b ++ k ++ [10] ++ leBytes 8 v.length ++ v) := by
  constructor
  · intro hv
    have h : ¬ indexByte v 10 ≠ -1 := by
      simpa [indexByte_ne_neg_one_iff_mem] using hv
    simp [appendKV, h]
  · intro hv
    have h : indexByte v 10 ≠ -1 := (indexByte_ne_neg_one_iff_mem v 10).mpr hv
    simp [appendKV, h, appendUint64LE]

/-- Witness for C1: concrete evaluations of both forms through
`appendKV_linefeed_forms`. -/
theorem appendKV_linefeed_forms_witness :
    appendKV [] [65] [66] = [] ++ [65] ++ [61] ++ [66] ++ [10] ∧
    appendKV [] [65] [10] = [] ++ [65] ++ [10] ++ leBytes 8 [10].length ++ [10] :=
  ⟨(appendKV_linefeed_forms [] [65] [66]).1 (by decide),
   (appendKV_linefeed_forms [] [65] [10]).2 (by decide)⟩

/-- Claim C5, amended: the mapping is total; each of the eight standard
levels maps to its matching 0-7 priority code; and every level outside
the defined set maps to `LOG_INFO` (the `default` branch), regardless
of where it sits relative to the standard levels. -/
theorem levelToPriority_total_default :
    (levelToPriority LevelDebug = LOG_DEBUG ∧
     levelToPriority LevelInfo = LOG_INFO ∧
     levelToPriority LevelNotice = LOG_NOTICE ∧
     levelToPriority LevelWarn = LOG_WARNING ∧
     levelToPriority LevelError = LOG_ERR ∧
     levelToPriority LevelCritical = LOG_CRIT ∧
     levelToPriority LevelAlert = LOG_ALERT ∧
     levelToPriority LevelEmergency = LOG_EMERG) ∧
    ∀ l : Int, l ≠ LevelDebug → l ≠ LevelInfo → l ≠ LevelNotice →
      l ≠ LevelWarn → l ≠ LevelError → l ≠ LevelCritical →
      l ≠ LevelAlert → l ≠ LevelEmergency →
      levelToPriority l = LOG_INFO := by
  constructor
  · refine ⟨?_, ?_, ?_, ?_, ?_, ?_, ?_, ?_⟩ <;> decide
  · intro l h1 h2 h3 h4 h5 h6 h7 h8
    simp [levelToPriority, h1, h2, h3, h4, h5, h6, h7, h8]

/-- Witness for the amended C5: the custom level 2 (between notice and
warning) maps to `LOG_INFO`. -/
theorem levelToPriority_total_default_witness :
    levelToPriority 2 = LOG_INFO :=
  levelToPriority_total_default.2 2 (by decide) (by decide) (by decide)
    (by decide) (by decide) (by decide) (by decide) (by decide)

/-- Counterexample for C5 as stated: the custom level 2 sits between
notice (1) and warning (4); the nearest standard level at or below it
is notice, so the spec's rule demands priority 5, but the code's
`default` branch yields `LOG_INFO` = 6. -/
theorem levelToPriority_not_nearest_below :
    levelToPriority 2 = LOG_INFO ∧
    specLevelToPriority 2 = LOG_NOTICE ∧
    LOG_INFO ≠ LOG_NOTICE := by
  refine ⟨?_, ?_, ?_⟩ <;> decide

/-! ## Decoding one wire entry (for the round-trip claim C7)

The wire grammar (spec §6, and the shape produced by `appendKV`):
an inline entry is `KEY=VALUE\n` with no line feed inside `VALUE`;
a binary entry is `KEY\n`, an 8-byte little-endian length `L`, then
`L` raw bytes with no trailing delimiter.  The decoder scans the key
up to the first `=` or line feed, which is exactly how the two forms
are distinguished. -/

/-- Read bytes until one satisfying `stop` is found; return the bytes
before it, the stop byte, and the remainder. -/
def readUntilByte (stop : Nat → Bool) : List Nat → Option (List Nat × Nat × List Nat)
  | [] => none
  | c :: rest =>
    if stop c then some ([], c, rest)
    else
      match readUntilByte stop rest with
      | some (pre, d, rem) => some (c :: pre, d, rem)
      | none => none

/-- Decode one wire entry from the front of `bs`: returns the key, the
value, and the remaining bytes. -/
def decodeEntry (bs : List Nat) : Option (List Nat × List Nat × List Nat) :=
  match readUntilByte (fun c => c == 61 || c == 10) bs with
  | none => none
  | some (key, d, rest) =>
    if d = 61 then
      match readUntilByte (fun c => c == 10) rest with
      | none => none
      | some (v, _, rem) => some (key, v, rem)
    else
      if rest.length < 8 then none
      else
        let L := decodeLE (rest.take 8)
        if (rest.drop 8).length < L then none
        else some (key, (rest.drop 8).take L, (rest.drop 8).drop L)

theorem readUntilByte_append (stop : Nat → Bool) (pre : List Nat) (d : Nat)
    (rest : List Nat) (hpre : ∀ c ∈ pre, stop c = false) (hd : stop d = true) :
    readUntilByte stop (pre ++ d :: rest) = some (pre, d, rest) := by
  induction pre with
  | nil => simp [readUntilByte, hd]
  | cons c pre ih =>
    have hc : stop c = false := hpre c (List.mem_cons_self c pre)
    have ih' := ih (fun x hx => hpre x (List.mem_cons_of_mem c hx))
    simp [readUntilByte, hc, ih']

theorem leBytes_length (w n : Nat) : (leBytes w n).length = w := by
  induction w generalizing n with
  | zero => rfl
  | succ w ih => simp [leBytes, ih]

theorem decodeLE_leBytes (w n : Nat) : decodeLE (leBytes w n) = n % 256 ^ w := by
  induction w generalizing n with
  | zero => simp [leBytes, decodeLE, Nat.mod_one]
  | succ w ih =>
    calc decodeLE (leBytes (w + 1) n)
        = n % 256 % 256 + 256 * decodeLE (leBytes w (n / 256)) := rfl
      _ = n % 256 + 256 * (n / 256 % 256 ^ w) := by
          rw [Nat.mod_mod_of_dvd _ dvd_rfl, ih]
      _ = n % (256 * 256 ^ w) := (Nat.mod_mul).symm
      _ = n % 256 ^ (w + 1) := by rw [pow_succ']

theorem stop_false_of_not_mem (k : List Nat) (hk10 : 10 ∉ k) (hk61 : 61 ∉ k) :
    ∀ c ∈ k, ((c == 61 || c == 10) : Bool) = false := by
  intro c hc
  have h1 : c ≠ 61 := fun h => hk61 (h ▸ hc)
  have h2 : c ≠ 10 := fun h => hk10 (h ▸ hc)
  simp [h1, h2]

/-- Claim C7: encoding is invertible entry by entry.  For a key that
contains neither `=` nor a line feed (the journal accepts only keys
matching `^[A-Z_][A-Z0-9_]*$`, which excludes both): a value holding a
line feed is emitted in the binary length-prefixed form and decoding it
recovers the value byte for byte; a value with no line feed is emitted
in the inline form and splitting at the first `=` and the trailing line
feed recovers the value exactly. -/
theorem appendKV_decodeEntry_roundtrip (k v : List Nat)
    (hk10 : 10 ∉ k) (hk61 : 61 ∉ k) (hlen : v.length < 2 ^ 64) :
    (10 ∈ v →
      appendKV [] k v = k ++ [10] ++ leBytes 8 v.length ++ v ∧
      decodeEntry (appendKV [] k v) = some (k, v, [])) ∧
    (10 ∉ v →
      appendKV [] k v = k ++ [61] ++ v ++ [10] ∧
      decodeEntry (appendKV [] k v) = some (k, v, [])) := by
  have hkstop := stop_false_of_not_mem k hk10 hk61
  constructor
  · intro hv
    have hform : appendKV [] k v = k ++ [10] ++ leBytes 8 v.length ++ v := by
      simpa using (appendKV_linefeed_forms [] k v).2 hv
    refine ⟨hform, ?_⟩
    have hshape : appendKV [] k v = k ++ 10 :: (leBytes 8 v.length ++ v) := by
      simp [hform]
    rw [hshape]
    rw [decodeEntry, readUntilByte_append _ k 10 _ hkstop (by simp)]
    have hlb : (leBytes 8 v.length).length = 8 := leBytes_length 8 v.length
    have htake : (leBytes 8 v.length ++ v).take 8 = leBytes 8 v.length :=
      List.take_left' hlb
    have hdrop : (leBytes 8 v.length ++ v).drop 8 = v :=
      List.drop_left' hlb
    have hlen8 : (leBytes 8 v.length ++ v).length = 8 + v.length := by
      simp [hlb]
    have hL : decodeLE (leBytes 8 v.length) = v.length := by
      rw [decodeLE_leBytes]
      have h256 : (256 : Nat) ^ 8 = 2 ^ 64 := by norm_num
      rw [h256]
      exact Nat.mod_eq_of_lt hlen
    simp [htake, hdrop, hlen8, hL]
  · intro hv
    have hform : appendKV [] k v = k ++ [61] ++ v ++ [10] := by
      simpa using (appendKV_linefeed_forms [] k v).1 hv
    refine ⟨hform, ?_⟩
    have hshape : appendKV [] k v = k ++ 61 :: (v ++ [10]) := by
      simp [hform]
    rw [hshape]
    rw [decodeEntry, readUntilByte_append _ k 61 _ hkstop (by simp)]
    have hvstop : ∀ c ∈ v, ((c == 10) : Bool) = false := by
      intro c hc
      have h2 : c ≠ 10 := fun h => hv (h ▸ hc)
      simp [h2]
    rw [show v ++ [10] = v ++ 10 :: [] by simp]
    simp [readUntilByte_append _ v 10 [] hvstop (by simp)]

/-- Witness for C7: a two-byte key round-trips through both forms via
`appendKV_decodeEntry_roundtrip`. -/
theorem appendKV_decodeEntry_roundtrip_witness :
    decodeEntry (appendKV [] [75, 95] [10, 66]) = some ([75, 95], [10, 66], []) ∧
    decodeEntry (appendKV [] [75, 95] [66, 67]) = some ([75, 95], [66, 67], []) :=
  ⟨((appendKV_decodeEntry_roundtrip [75, 95] [10, 66] (by decide) (by decide)
      (by norm_num)).1 (by decide)).2,
   ((appendKV_decodeEntry_roundtrip [75, 95] [66, 67] (by decide) (by decide)
      (by norm_num)).2 (by decide)).2⟩

/-! ## Go byte slices with explicit backing arrays

`WithAttrs` (src/journal.go lines 271-279) relies on `slices.Clone` to
avoid mutating the parent handler's `preformatted` buffer through the
shared backing array of a Go slice.  To make that observable we model a
byte slice as a (backing-array id, length, capacity) triple and a heap
as the list of backing arrays.  All slices in this code start at array
offset 0 (`make([]byte, 0, 1024)`, `slices.Clone`, `append`), so no
offset field is needed.  A backing array always has exactly `cap`
elements; the bytes past `len` are scratch space. -/

structure GoSlice where
  arr : Nat
  len : Nat
  cap : Nat
deriving DecidableEq, Repr

structure Heap where
  arrays : List (List Nat)
deriving Repr

/-- The bytes a slice denotes: the first `len` bytes of its backing
array. -/
def Heap.read (H : Heap) (s : GoSlice) : List Nat :=
  (H.arrays.getD s.arr []).take s.len

/-- Well-formedness of a slice with respect to a heap. -/
def Heap.valid (H : Heap) (s : GoSlice) : Prop :=
  s.arr < H.arrays.length ∧ s.len ≤ s.cap ∧
    (H.arrays.getD s.arr []).length = s.cap

instance (H : Heap) (s : GoSlice) : Decidable (H.valid s) := by
  unfold Heap.valid; infer_instance

/-- Model of Go `append(s, bs...)`: write in place when the capacity
suffices (mutating the backing array, which may be shared), otherwise
allocate a fresh, larger backing array (Go grows small slices by
doubling). -/
def goAppend (H : Heap) (s : GoSlice) (bs : List Nat) : Heap × GoSlice :=
  let a := H.arrays.getD s.arr []
  if s.len + bs.length ≤ s.cap then
    let a2 := a.take s.len ++ bs ++ a.drop (s.len + bs.length)
    ({ arrays := H.arrays.set s.arr a2 },
     { s with len := s.len + bs.length })
  else
    let newCap := max (2 * s.cap) (s.len + bs.length)
    let a2 := a.take s.len ++ bs ++ List.replicate (newCap - (s.len + bs.length)) 0
    ({ arrays := H.arrays ++ [a2] },
     { arr := H.arrays.length, len := s.len + bs.length, cap := newCap })

/-- Model of Go `slices.Clone(s)`: a fresh backing array holding
exactly the slice's bytes, capacity equal to length. -/
def goClone (H : Heap) (s : GoSlice) : Heap × GoSlice :=
  ({ arrays := H.arrays ++ [H.read s] },
   { arr := H.arrays.length, len := s.len, cap := s.len })

/-! ## Attributes (`slog.Attr` trees)

An attribute value is either a scalar or a group of child attributes.
Scalar payloads: `str` covers `KindString` (and stands for the generic
`Value.String()` rendering), `duration` carries the value of
`Duration().Microseconds()`, `time` carries `Time().UnixMicro()`, and
`nil` is the zero `slog.Value` (kind `Any`, payload `nil`).  The
`KindLogValuer` lazy kind is outside the model: `Value.Resolve()` is
the identity on every kind modelled here, so the source's
`a.Value = a.Value.Resolve()` lines are no-ops in the model.  The
`ReplaceAttr` hook is modelled as mapping non-group attributes to
non-group attributes (the source only invokes it on non-groups). -/

inductive JScalar where
  | nil
  | str (s : List Nat)
  | duration (us : Int)
  | time (us : Int)
deriving DecidableEq, Repr

inductive JValue where
  | scalar (v : JScalar)
  | group (children : List (List Nat × JValue))
deriving Repr

/-- An attribute: key bytes paired with a value. -/
abbrev JAttr := List Nat × JValue

/-- Model of `Options` (src/journal.go lines 74-88). -/
structure Options where
  replaceAttr : Option (List (List Nat) → List Nat × JScalar → List Nat × JScalar)
  replaceGroup : Option (List Nat → List Nat)

/-- Model of `Handler` (src/journal.go lines 92-102).  The `io.Writer`
field is the transport modelled separately by `journalWrite`; `pfx`
models the source's prefix-string field. -/
structure Handler where
  opts : Options
  groups : List (List Nat)
  pfx : List Nat
  preformatted : GoSlice

/-- Decimal digits of a natural number, as ASCII bytes
(`strconv.FormatInt` for nonnegative input). -/
def natDecBytes (n : Nat) : List Nat := (Nat.toDigits 10 n).map Char.toNat

/-- Model of `strconv.FormatInt(i, 10)` as bytes (byte 45 is the minus
sign). -/
def intDecBytes (i : Int) : List Nat :=
  if i < 0 then 45 :: natDecBytes i.natAbs else natDecBytes i.natAbs

/-- The `switch a.Value.Kind()` rendering of a scalar value in
`appendAttr` (src/journal.go lines 258-263): durations as integer
microseconds, times as microseconds since the epoch, everything else
via the generic `Value.String()` text form (for the zero value that
text is `<nil>`). -/
def scalarString : JScalar → List Nat
  | .nil => [60, 110, 105, 108, 62]
  | .str s => s
  | .duration us => intDecBytes us
  | .time us => intDecBytes us

/-- Model of `a.Equal(slog.Attr{})` for a non-group attribute: Go's
`Value.Equal` first compares kinds, so only an empty key paired with
the zero `slog.Value` (kind `Any`, payload `nil`) matches the zero
attribute; an empty string value does not. -/
def isZeroScalarAttr : List Nat × JScalar → Bool
  | ([], .nil) => true
  | _ => false

/-- The group-name hook application in `appendAttr` and `WithGroup`:
`if rep := h.opts.ReplaceGroup; rep != nil { k = rep(k) }`. -/
def replaceGroupName (h : Handler) (k : List Nat) : List Nat :=
  match h.opts.replaceGroup with
  | some rg => rg k
  | none => k

/-! ## The attribute flattener (`Handler.appendAttr`, src/journal.go lines 225-267)

The source resolves the value, applies `ReplaceAttr` when the kind is
not a group, drops the attribute if it equals the zero attribute, and
then switches on the kind.  Since groups skip `ReplaceAttr` and can
never equal the zero attribute (their kind differs from the zero
value's `Any`), the group test can be matched first; the scalar arm
below performs the hook application and the zero test exactly as the
source does. -/

/-- The `ReplaceAttr` hook application on a non-group attribute:
`if rep := h.opts.ReplaceAttr; rep != nil && a.Value.Kind() != KindGroup
{ a = rep(h.groups, a) }`. -/
def applyHook (h : Handler) (k : List Nat) (v : JScalar) : List Nat × JScalar :=
  match h.opts.replaceAttr with
  | some rep => rep h.groups (k, v)
  | none => (k, v)

mutual

def appendAttr (h : Handler) (b : List Nat) (pfx : List Nat) (a : JAttr) : List Nat :=
  match a with
  | (k, .group children) =>
    -- If a group has no Attrs (even if it has a non-empty key), ignore it.
    if children.length = 0 then b
    else
      -- If a group's key is not empty, append the group's key as a prefix.
      let pfx2 := if k = [] then pfx else pfx ++ replaceGroupName h k ++ [95]
      appendAttrs h b pfx2 children
  | (k, .scalar v) =>
    let p := applyHook h k v
    -- If an Attr's key and value are both the zero value, ignore the Attr.
    if isZeroScalarAttr p then b
    else appendKV b (pfx ++ p.1) (scalarString p.2)

def appendAttrs (h : Handler) (b : List Nat) (pfx : List Nat) (children : List JAttr) : List Nat :=
  match children with
  | [] => b
  | a :: rest => appendAttrs h (appendAttr h b pfx a) pfx rest

end

/-- A hook-free handler over an empty one-array heap, used by concrete
witnesses. -/
def handler0 : Handler :=
  { opts := { replaceAttr := none, replaceGroup := none },
    groups := [], pfx := [],
    preformatted := { arr := 0, len := 0, cap := 0 } }

/-- Claim C4: `appendAttr` drops a group with zero children regardless
of its key; inlines the children of a group with an empty key at the
current prefix; for a non-empty key recurses into each child in order
with the prefix extended by the key plus `_` (stated for a handler with
no group-name hook, as the claim reads); and encoding
`group("HTTP", [group("", [scalar("METHOD", "PUT")])])` yields the
single wire entry `HTTP_METHOD=PUT\n` (bytes spelt out below). -/
theorem appendAttr_group_rules (h : Handler) (b pfx k : List Nat) (children : List JAttr) :
    (appendAttr h b pfx (k, JValue.group []) = b) ∧
    (appendAttr h b pfx ([], JValue.group children) = appendAttrs h b pfx children) ∧
    (h.opts.replaceGroup = none → k ≠ [] →
      appendAttr h b pfx (k, JValue.group children) =
        if children.length = 0 then b
        else appendAttrs h b (pfx ++ k ++ [95]) children) ∧
    (h.opts.replaceAttr = none → h.opts.replaceGroup = none →
      appendAttr h [] []
        ([72, 84, 84, 80],
         JValue.group [([],
           JValue.group [([77, 69, 84, 72, 79, 68],
             JValue.scalar (JScalar.str [80, 85, 84]))])]) =
        [72, 84, 84, 80, 95, 77, 69, 84, 72, 79, 68, 61, 80, 85, 84, 10]) := by
  refine ⟨?_, ?_, ?_, ?_⟩
  · simp [appendAttr]
  · cases children with
    | nil => simp [appendAttr, appendAttrs]
    | cons a rest => simp [appendAttr]
  · intro hrg hk
    by_cases hc : children.length = 0
    · cases children with
      | nil => simp [appendAttr, appendAttrs]
      | cons a rest => simp at hc
    · simp [appendAttr, hc, hk, replaceGroupName, hrg]
  · intro hra hrg
    simp [appendAttr, appendAttrs, hra, hrg, replaceGroupName, applyHook,
      isZeroScalarAttr, scalarString, appendKV, indexByte, appendUint64LE]

/-- Witness for C4: the nested example evaluated through
`appendAttr_group_rules` with the hook-free handler. -/
theorem appendAttr_group_rules_witness :
    appendAttr handler0 [] []
      ([72, 84, 84, 80],
       JValue.group [([],
         JValue.group [([77, 69, 84, 72, 79, 68],
           JValue.scalar (JScalar.str [80, 85, 84]))])]) =
      [72, 84, 84, 80, 95, 77, 69, 84, 72, 79, 68, 61, 80, 85, 84, 10] :=
  (appendAttr_group_rules handler0 [] [] [] []).2.2.2 rfl rfl

/-- Claim C10: a scalar attribute with an empty key and a non-empty
resolved value is not dropped: `appendAttr` emits exactly one wire
entry whose key is the bare accumulated prefix (the code writes
`prefix + ""`), settling the spec's open question in favour of writing.
Stated for a handler with no `ReplaceAttr` hook. -/
theorem appendAttr_empty_key_scalar (h : Handler) (b pfx s : List Nat)
    (hra : h.opts.replaceAttr = none) (hs : s ≠ []) :
    appendAttr h b pfx ([], JValue.scalar (JScalar.str s)) = appendKV b pfx s := by
  simp [appendAttr, hra, applyHook, isZeroScalarAttr, scalarString]

/-- Witness for C10: an empty-key string attribute under prefix `P`
becomes the entry `P=x\n` via `appendAttr_empty_key_scalar`. -/
theorem appendAttr_empty_key_scalar_witness :
    appendAttr handler0 [] [80] ([], JValue.scalar (JScalar.str [120])) =
      appendKV [] [80] [120] :=
  appendAttr_empty_key_scalar handler0 [] [80] [120] rfl (by decide)

/-! ## The datagram writer (`journalWriter.Write`, src/journal_writer.go lines 66-103)

The writer attempts one datagram send of the buffer to the fixed
destination.  On `*net.OpError`-wrapped `*os.SyscallError` failures it
treats `ENOENT` as success, recovers `ENOBUFS`/`EMSGSIZE` through the
large-payload fallback (`tempFd` in src/tempfd_linux.go, `tempFdCommon`
in src/tempfd.go, `trySeal`), and reports anything else to the caller.
Go scoping detail reflected below: `file, err := tempFd()` reuses the
named return `err`, so a fully successful fallback returns `(0, nil)`
(the `n` from the failed first send); the `if`-scoped `err`s of
`file.Write`, `trySeal` and `WriteMsgUnix` shadow it.

System-call outcomes are supplied by an explicit environment record so
that every error path of the source is a reachable branch of the
model. -/

inductive Errno where
  | ENOENT | ENOBUFS | EMSGSIZE | EINVAL | EPERM
deriving DecidableEq, Repr

/-- Outcome of the initial `conn.WriteToUnix`: success, a
`*net.OpError` wrapping an `*os.SyscallError` with the given errno, a
`*net.OpError` wrapping something else, or an error that is not a
`*net.OpError` at all. -/
inductive SendOutcome where
  | ok
  | opSyscall (e : Errno)
  | opOther
  | otherErr
deriving DecidableEq, Repr

/-- Where the spill file lives: an anonymous in-memory `memfd`, a file
created (and immediately unlinked) in `/dev/shm`, or one in the generic
temp directory. -/
inductive TempPath where
  | memfd | devShm | tmpDir
deriving DecidableEq, Repr

/-- Outcomes of the system calls the writer makes. -/
structure SysEnv where
  sendOutcome : SendOutcome
  memfdOk : Bool
  devShmOk : Bool
  tmpDirOk : Bool
  unlinkOk : Bool
  fileWriteOk : Bool
  msgSendOk : Bool
deriving DecidableEq, Repr

/-- Model of `tempFdCommon` (src/tempfd.go lines 8-20): try
`os.CreateTemp` in `/dev/shm/`, fall back to the generic temp
directory, then unlink the name; an unlink failure is an error. -/
def tempFdCommon (env : SysEnv) : Option TempPath :=
  match (if env.devShmOk then some TempPath.devShm
         else if env.tmpDirOk then some TempPath.tmpDir else none) with
  | none => none
  | some p => if env.unlinkOk then some p else none

/-- Model of `tempFd` (src/tempfd_linux.go lines 11-17): prefer
`unix.MemfdCreate("journal", MFD_ALLOW_SEALING)`; on failure fall back
to `tempFdCommon`. -/
def tempFd (env : SysEnv) : Option TempPath :=
  if env.memfdOk then some TempPath.memfd else tempFdCommon env

/-- Model of `trySeal` (src/tempfd_linux.go lines 19-22):
`fcntl(F_ADD_SEALS, F_SEAL_SEAL|F_SEAL_SHRINK|F_SEAL_GROW|F_SEAL_WRITE)`.
Linux permits adding seals only on memfd files created with
`MFD_ALLOW_SEALING`; on an ordinary tmpfs or disk file the call fails
with `EINVAL`.  Returns the errno on failure. -/
def trySeal (p : TempPath) : Option Errno :=
  match p with
  | TempPath.memfd => none
  | _ => some Errno.EINVAL

/-- Errors `Write` can return to its caller. -/
inductive WErr where
  | sendErr (o : SendOutcome)
  | tempFdErr
  | fileWriteErr
  | sealErr (e : Errno)
  | msgSendErr
deriving DecidableEq, Repr

/-- A datagram delivered to the destination: its payload and the file
descriptors carried as ancillary (out-of-band) data, each identified by
the spill file it refers to. -/
structure Msg where
  payload : List Nat
  oobFds : List TempPath
  dest : List Nat
deriving DecidableEq, Repr

/-- What one call to `Write` did: the Go return value `(n, err)`, the
datagrams actually delivered, and the spill file (with its content)
if one was created. -/
structure WriteResult where
  n : Nat
  err : Option WErr
  msgs : List Msg
  spilledFile : Option (TempPath × List Nat)
deriving DecidableEq, Repr

/-- Model of `journalWriter.Write` (src/journal_writer.go lines
66-103).  `addr` is the fixed destination resolved at construction;
`p` is the buffer. -/
def journalWrite (env : SysEnv) (addr : List Nat) (p : List Nat) : WriteResult :=
  match env.sendOutcome with
  | SendOutcome.ok =>
    { n := p.length, err := none,
      msgs := [{ payload := p, oobFds := [], dest := addr }], spilledFile := none }
  | SendOutcome.otherErr =>
    -- not a *net.OpError: returned unchanged
    { n := 0, err := some (WErr.sendErr SendOutcome.otherErr), msgs := [], spilledFile := none }
  | SendOutcome.opOther =>
    -- *net.OpError not wrapping an *os.SyscallError: returned unchanged
    { n := 0, err := some (WErr.sendErr SendOutcome.opOther), msgs := [], spilledFile := none }
  | SendOutcome.opSyscall e =>
    if e = Errno.ENOENT then
      -- fail silently if the journal is not available
      { n := 0, err := none, msgs := [], spilledFile := none }
    else if e ≠ Errno.ENOBUFS ∧ e ≠ Errno.EMSGSIZE then
      { n := 0, err := some (WErr.sendErr (SendOutcome.opSyscall e)), msgs := [], spilledFile := none }
    else
      match tempFd env with
      | none => { n := 0, err := some WErr.tempFdErr, msgs := [], spilledFile := none }
      | some path =>
        if ¬ env.fileWriteOk then
          { n := 0, err := some WErr.fileWriteErr, msgs := [], spilledFile := some (path, []) }
        else
          match trySeal path with
          | some se =>
            { n := 0, err := some (WErr.sealErr se), msgs := [], spilledFile := some (path, p) }
          | none =>
            if ¬ env.msgSendOk then
              { n := 0, err := some WErr.msgSendErr, msgs := [], spilledFile := some (path, p) }
            else
              -- WriteMsgUnix([]byte{}, UnixRights(fd), j.addr) succeeded;
              -- the outer err was overwritten with nil by tempFd()
              { n := 0, err := none,
                msgs := [{ payload := [], oobFds := [path], dest := addr }],
                spilledFile := some (path, p) }

/-- Claim C2: when the datagram send fails with `ENOBUFS` or
`EMSGSIZE` (and the fallback's own system calls succeed, as on a Linux
host with `memfd_create`), `Write` spills the buffer to a temporary
descriptor and sends a zero-length payload carrying exactly one
ancillary descriptor to the same destination; the spill file read from
offset zero holds exactly the original buffer, and no error is
returned. -/
theorem write_capacity_fallback (env : SysEnv) (addr p : List Nat)
    (hsend : env.sendOutcome = SendOutcome.opSyscall Errno.ENOBUFS ∨
             env.sendOutcome = SendOutcome.opSyscall Errno.EMSGSIZE)
    (hm : env.memfdOk = true) (hw : env.fileWriteOk = true)
    (hs : env.msgSendOk = true) :
    (journalWrite env addr p).err = none ∧
    (journalWrite env addr p).msgs =
      [{ payload := [], oobFds := [TempPath.memfd], dest := addr }] ∧
    (journalWrite env addr p).spilledFile = some (TempPath.memfd, p) := by
  rcases hsend with h | h <;>
    simp [journalWrite, h, tempFd, hm, hw, hs, trySeal]

/-- A fully healthy fallback environment whose first send hits
`ENOBUFS`. -/
def envCapacity : SysEnv :=
  { sendOutcome := SendOutcome.opSyscall Errno.ENOBUFS, memfdOk := true,
    devShmOk := true, tmpDirOk := true, unlinkOk := true,
    fileWriteOk := true, msgSendOk := true }

/-- The same environment on a host without `memfd_create`. -/
def envCapacityNoMemfd : SysEnv :=
  { sendOutcome := SendOutcome.opSyscall Errno.ENOBUFS, memfdOk := false,
    devShmOk := true, tmpDirOk := true, unlinkOk := true,
    fileWriteOk := true, msgSendOk := true }

/-- An environment whose send fails with `ENOENT` (no journal daemon). -/
def envEnoent : SysEnv :=
  { sendOutcome := SendOutcome.opSyscall Errno.ENOENT, memfdOk := true,
    devShmOk := true, tmpDirOk := true, unlinkOk := true,
    fileWriteOk := true, msgSendOk := true }

/-- Witness for C2: a concrete environment and buffer pushed through
`write_capacity_fallback`. -/
theorem write_capacity_fallback_witness :
    (journalWrite envCapacity [115] [72, 105]).err = none ∧
    (journalWrite envCapacity [115] [72, 105]).msgs =
      [{ payload := [], oobFds := [TempPath.memfd], dest := [115] }] ∧
    (journalWrite envCapacity [115] [72, 105]).spilledFile =
      some (TempPath.memfd, [72, 105]) :=
  write_capacity_fallback envCapacity [115] [72, 105] (Or.inl rfl) rfl rfl rfl

/-- Claim C3: when the send fails because the destination does not
exist (`ENOENT`), `Write` returns success — a nil error — with no
fallback attempted (no spill file, no message delivered). -/
theorem write_enoent_silent (env : SysEnv) (addr p : List Nat)
    (h : env.sendOutcome = SendOutcome.opSyscall Errno.ENOENT) :
    journalWrite env addr p =
      { n := 0, err := none, msgs := [], spilledFile := none } := by
  simp [journalWrite, h]

/-- Witness for C3: a concrete `ENOENT` environment pushed through
`write_enoent_silent`. -/
theorem write_enoent_silent_witness :
    journalWrite envEnoent [115] [72, 105] =
      { n := 0, err := none, msgs := [], spilledFile := none } :=
  write_enoent_silent envEnoent [115] [72, 105] rfl

/-- Claim C6 (code divergence): on a host without `memfd_create` the
spill lands in `/dev/shm`, `trySeal`'s `F_ADD_SEALS` fails with
`EINVAL`, and `Write` — contrary to the claim and to `Handle`'s own
documentation — propagates the seal error and never sends the
descriptor: the seal failure on the fallback path is fatal, not
non-fatal. -/
theorem seal_failure_fatal_on_fallback :
    (journalWrite envCapacityNoMemfd [115] [72, 105]).err =
      some (WErr.sealErr Errno.EINVAL) ∧
    (journalWrite envCapacityNoMemfd [115] [72, 105]).msgs = [] ∧
    (journalWrite envCapacityNoMemfd [115] [72, 105]).spilledFile =
      some (TempPath.devShm, [72, 105]) := by
  refine ⟨?_, ?_, ?_⟩ <;> rfl

/-! ## The debug leveler (`LevelVar.Level`, src/journal.go lines 41-48)

Source:
```
func (v *LevelVar) Level() slog.Level {
    sync.OnceFunc(func() {
        if os.Getenv("DEBUG_INVOCATION") != "" {
            v.Set(slog.LevelDebug)
        }
    })()
    return v.LevelVar.Level()
}
```
`sync.OnceFunc(f)` returns a fresh once-wrapper around `f`; since a new
wrapper is constructed and invoked on every call to `Level`, the
closure — including the `os.Getenv("DEBUG_INVOCATION")` read — runs
unconditionally on every call.  The model threads an environment state
counting `os.Getenv` reads. -/

structure EnvState where
  debugInvocationSet : Bool
  getenvCalls : Nat
deriving DecidableEq, Repr

/-- Model of one call to `LevelVar.Level`: the once-wrapper built in
this call has never run, so the closure executes — one `Getenv` read,
then `v.Set(slog.LevelDebug)` when the variable is set — and the
underlying level is returned. -/
def levelVarLevel (env : EnvState) (v : Int) : Int × EnvState × Int :=
  let env2 : EnvState := { env with getenvCalls := env.getenvCalls + 1 }
  let v2 := if env2.debugInvocationSet then LevelDebug else v
  (v2, env2, v2)

/-- `n` successive calls to `LevelVar.Level`, returning the final
environment and leveler state. -/
def levelCalls : Nat → EnvState → Int → EnvState × Int
  | 0, env, v => (env, v)
  | n + 1, env, v =>
    let r := levelVarLevel env v
    levelCalls n r.2.1 r.2.2

/-- Claim C9 (code divergence): every call to `Level` reads the
`DEBUG_INVOCATION` environment variable — after `n` calls the read
count has grown by `n`, and after two calls it is 2, not at most 1 —
because `sync.OnceFunc` builds a fresh `sync.Once` on each call instead
of reusing a stored one-shot guard. -/
theorem levelVar_env_read_every_call :
    (∀ (n : Nat) (env : EnvState) (v : Int),
      (levelCalls n env v).1.getenvCalls = env.getenvCalls + n) ∧
    (levelCalls 2 { debugInvocationSet := false, getenvCalls := 0 } 0).1.getenvCalls = 2 ∧
    1 < (levelCalls 2 { debugInvocationSet := false, getenvCalls := 0 } 0).1.getenvCalls := by
  have hgen : ∀ (n : Nat) (env : EnvState) (v : Int),
      (levelCalls n env v).1.getenvCalls = env.getenvCalls + n := by
    intro n
    induction n with
    | zero => intro env v; simp [levelCalls]
    | succ n ih =>
      intro env v
      simp only [levelCalls, levelVarLevel]
      rw [ih]
      simp
      omega
  exact ⟨hgen, by decide, by decide⟩

/-! ## Append-only slice operations preserve protected arrays -/

theorem getD_set_self {α : Type} (l : List α) (i : Nat) (x d : α)
    (h : i < l.length) : (l.set i x).getD i d = x := by
  induction l generalizing i with
  | nil => simp at h
  | cons a rest ih =>
    cases i with
    | zero => rfl
    | succ i =>
      simp only [List.set, List.getD, List.length_cons] at *
      exact ih i (by omega)

theorem getD_set_ne {α : Type} (l : List α) (i j : Nat) (x d : α)
    (h : i ≠ j) : (l.set i x).getD j d = l.getD j d := by
  induction l generalizing i j with
  | nil => simp [List.set]
  | cons a rest ih =>
    cases i with
    | zero =>
      cases j with
      | zero => exact absurd rfl h
      | succ j => rfl
    | succ i =>
      cases j with
      | zero => rfl
      | succ j =>
        simp only [List.set, List.getD]
        exact ih i j (by omega)

theorem getD_append_left {α : Type} (l1 l2 : List α) (i : Nat) (d : α)
    (h : i < l1.length) : (l1 ++ l2).getD i d = l1.getD i d := by
  induction l1 generalizing i with
  | nil => simp at h
  | cons a rest ih =>
    cases i with
    | zero => rfl
    | succ i =>
      simp only [List.cons_append, List.getD, List.length_cons] at *
      exact ih i (by omega)

theorem getD_append_self {α : Type} (l : List α) (x d : α) :
    (l ++ [x]).getD l.length d = x := by
  induction l with
  | nil => rfl
  | cons a rest ih => simpa using ih

/-- `GrowsTo N H s H2 s2 out`: an append-only slice computation took
the slice `s` in heap `H` to `s2` in `H2`, appending exactly `out` to
the bytes the slice denotes, while every backing array with id below
`N` is untouched (`N` protects everything the parent handler can
reach). -/
structure GrowsTo (N : Nat) (H : Heap) (s : GoSlice) (H2 : Heap)
    (s2 : GoSlice) (out : List Nat) : Prop where
  valid2 : Heap.valid H2 s2
  arrGe : N ≤ s2.arr
  lenLe : H.arrays.length ≤ H2.arrays.length
  preserved : ∀ id, id < N → H2.arrays.getD id [] = H.arrays.getD id []
  readEq : H2.read s2 = H.read s ++ out

theorem GrowsTo.init {N : Nat} {H : Heap} {s : GoSlice}
    (hv : Heap.valid H s) (hN : N ≤ s.arr) : GrowsTo N H s H s [] :=
  { valid2 := hv, arrGe := hN, lenLe := le_refl _,
    preserved := fun _ _ => rfl, readEq := by simp }

theorem GrowsTo.trans {N : Nat} {H H2 H3 : Heap} {s s2 s3 : GoSlice}
    {o1 o2 : List Nat} (g1 : GrowsTo N H s H2 s2 o1)
    (g2 : GrowsTo N H2 s2 H3 s3 o2) : GrowsTo N H s H3 s3 (o1 ++ o2) :=
  { valid2 := g2.valid2, arrGe := g2.arrGe,
    lenLe := le_trans g1.lenLe g2.lenLe,
    preserved := fun id hid => (g2.preserved id hid).trans (g1.preserved id hid),
    readEq := by rw [g2.readEq, g1.readEq, List.append_assoc] }

theorem goAppend_spec (N : Nat) (H : Heap) (s : GoSlice) (bs : List Nat)
    (hv : Heap.valid H s) (hN : N ≤ s.arr) :
    GrowsTo N H s (goAppend H s bs).1 (goAppend H s bs).2 bs := by
  obtain ⟨ha, hlc, hal⟩ := hv
  have htk : ((H.arrays.getD s.arr []).take s.len).length = s.len := by
    rw [List.length_take]
    omega
  have hlenfront : ((H.arrays.getD s.arr []).take s.len ++ bs).length = s.len + bs.length := by
    rw [List.length_append, htk]
  by_cases hfit : s.len + bs.length ≤ s.cap
  · -- in-place write into the (possibly shared) backing array
    have hres : goAppend H s bs =
        ({ arrays := H.arrays.set s.arr
             ((H.arrays.getD s.arr []).take s.len ++ bs ++
              (H.arrays.getD s.arr []).drop (s.len + bs.length)) },
         { arr := s.arr, len := s.len + bs.length, cap := s.cap }) := by
      simp [goAppend, hfit]
    rw [hres]
    refine { valid2 := ⟨?_, ?_, ?_⟩, arrGe := ?_, lenLe := ?_,
             preserved := ?_, readEq := ?_ }
    · simpa using ha
    · exact hfit
    · show ((H.arrays.set s.arr _).getD s.arr []).length = s.cap
      rw [getD_set_self _ _ _ _ ha]
      simp only [List.length_append, List.length_drop, htk]
      omega
    · exact hN
    · simp
    · intro id hid
      exact getD_set_ne _ _ _ _ _ (by omega)
    · simp only [Heap.read]
      rw [getD_set_self _ _ _ _ ha]
      rw [List.take_left' hlenfront]
  · -- reallocate: fresh backing array appended to the heap
    have hres : goAppend H s bs =
        ({ arrays := H.arrays ++
             [(H.arrays.getD s.arr []).take s.len ++ bs ++
              List.replicate (max (2 * s.cap) (s.len + bs.length) - (s.len + bs.length)) 0] },
         { arr := H.arrays.length, len := s.len + bs.length,
           cap := max (2 * s.cap) (s.len + bs.length) }) := by
      simp [goAppend, hfit]
    rw [hres]
    have hcapge : s.len + bs.length ≤ max (2 * s.cap) (s.len + bs.length) :=
      le_max_right _ _
    refine { valid2 := ⟨?_, ?_, ?_⟩, arrGe := ?_, lenLe := ?_,
             preserved := ?_, readEq := ?_ }
    · simp
    · exact hcapge
    · show ((H.arrays ++ [_]).getD H.arrays.length []).length = _
      rw [getD_append_self]
      simp only [List.length_append, List.length_replicate, htk]
      omega
    · show N ≤ H.arrays.length
      omega
    · simp
    · intro id hid
      exact getD_append_left _ _ _ _ (by omega)
    · simp only [Heap.read]
      rw [getD_append_self]
      rw [List.take_left' hlenfront]

theorem GrowsTo.stepAppend {N : Nat} {H H2 : Heap} {s s2 : GoSlice}
    {out : List Nat} (g : GrowsTo N H s H2 s2 out) (bs : List Nat) :
    GrowsTo N H s (goAppend H2 s2 bs).1 (goAppend H2 s2 bs).2 (out ++ bs) :=
  g.trans (goAppend_spec N H2 s2 bs g.valid2 g.arrGe)

theorem goClone_spec (H : Heap) (s : GoSlice) (hv : Heap.valid H s) :
    Heap.valid (goClone H s).1 (goClone H s).2 ∧
    (goClone H s).2.arr = H.arrays.length ∧
    (∀ id, id < H.arrays.length →
      (goClone H s).1.arrays.getD id [] = H.arrays.getD id []) ∧
    (goClone H s).1.read (goClone H s).2 = H.read s := by
  obtain ⟨ha, hlc, hal⟩ := hv
  have hreadlen : (H.read s).length = s.len := by
    simp only [Heap.read, List.length_take]
    omega
  refine ⟨⟨?_, le_refl _, ?_⟩, rfl, ?_, ?_⟩
  · simp [goClone]
  · show ((H.arrays ++ [H.read s]).getD H.arrays.length []).length = s.len
    rw [getD_append_self]
    exact hreadlen
  · intro id hid
    exact getD_append_left _ _ _ _ hid
  · show ((H.arrays ++ [H.read s]).getD H.arrays.length []).take s.len = H.read s
    rw [getD_append_self, ← hreadlen, List.take_length]

/-! ## Heap-level encoder and flattener

The same `appendKV`/`appendAttr` logic, threading the slice heap: each
Go `append` in the source is one `goAppend`.  The pure functions above
compute the bytes; the `GrowsTo` specs below tie the two together and
show that no protected backing array is written. -/

def appendKVH (H : Heap) (b : GoSlice) (k v : List Nat) : Heap × GoSlice :=
  if indexByte v 10 ≠ -1 then
    let r1 := goAppend H b k
    let r2 := goAppend r1.1 r1.2 [10]
    let r3 := goAppend r2.1 r2.2 (leBytes 8 v.length)
    goAppend r3.1 r3.2 v
  else
    let r1 := goAppend H b k
    let r2 := goAppend r1.1 r1.2 [61]
    let r3 := goAppend r2.1 r2.2 v
    goAppend r3.1 r3.2 [10]

mutual

def appendAttrH (h : Handler) (H : Heap) (b : GoSlice) (pfx : List Nat) (a : JAttr) : Heap × GoSlice :=
  match a with
  | (k, .group children) =>
    if children.length = 0 then (H, b)
    else
      let pfx2 := if k = [] then pfx else pfx ++ replaceGroupName h k ++ [95]
      appendAttrsH h H b pfx2 children
  | (k, .scalar v) =>
    let p := applyHook h k v
    if isZeroScalarAttr p then (H, b)
    else appendKVH H b (pfx ++ p.1) (scalarString p.2)

def appendAttrsH (h : Handler) (H : Heap) (b : GoSlice) (pfx : List Nat) (children : List JAttr) : Heap × GoSlice :=
  match children with
  | [] => (H, b)
  | a :: rest =>
    let r := appendAttrH h H b pfx a
    appendAttrsH h r.1 r.2 pfx rest

end

theorem appendKV_eq_append (b k v : List Nat) :
    appendKV b k v = b ++ appendKV [] k v := by
  by_cases hc : indexByte v 10 ≠ -1 <;>
    simp [appendKV, hc, appendUint64LE]

mutual

theorem appendAttr_eq_append (h : Handler) (b pfx : List Nat) (a : JAttr) :
    appendAttr h b pfx a = b ++ appendAttr h [] pfx a := by
  match a with
  | (k, .group children) =>
    by_cases hlen : children.length = 0
    · simp [appendAttr, hlen]
    · simp only [appendAttr, if_neg hlen]
      exact appendAttrs_eq_append h b _ children
  | (k, .scalar v) =>
    simp only [appendAttr]
    by_cases hz : isZeroScalarAttr (applyHook h k v) = true
    · simp [hz]
    · simp only [hz, if_false, Bool.false_eq_true]
      rw [appendKV_eq_append]

theorem appendAttrs_eq_append (h : Handler) (b pfx : List Nat) (children : List JAttr) :
    appendAttrs h b pfx children = b ++ appendAttrs h [] pfx children := by
  match children with
  | [] => simp [appendAttrs]
  | a :: rest =>
    simp only [appendAttrs]
    rw [appendAttrs_eq_append h (appendAttr h b pfx a) pfx rest,
        appendAttr_eq_append h b pfx a,
        appendAttrs_eq_append h (appendAttr h [] pfx a) pfx rest]
    simp

end

theorem GrowsTo.congr {N : Nat} {H H2 : Heap} {s s2 : GoSlice}
    {out out2 : List Nat} (g : GrowsTo N H s H2 s2 out) (h : out2 = out) :
    GrowsTo N H s H2 s2 out2 := h ▸ g

theorem appendKVH_spec (N : Nat) (H : Heap) (b : GoSlice) (k v : List Nat)
    (hv : Heap.valid H b) (hN : N ≤ b.arr) :
    GrowsTo N H b (appendKVH H b k v).1 (appendKVH H b k v).2 (appendKV [] k v) := by
  by_cases hc : indexByte v 10 ≠ -1
  · simp only [appendKVH, if_pos hc]
    exact (((((GrowsTo.init hv hN).stepAppend k).stepAppend [10]).stepAppend
      (leBytes 8 v.length)).stepAppend v).congr
      (by simp [appendKV, hc, appendUint64LE])
  · simp only [appendKVH, if_neg hc]
    exact (((((GrowsTo.init hv hN).stepAppend k).stepAppend [61]).stepAppend
      v).stepAppend [10]).congr
      (by simp [appendKV, hc])

mutual

theorem appendAttrH_spec (h : Handler) (N : Nat) (H : Heap) (b : GoSlice)
    (pfx : List Nat) (a : JAttr) (hv : Heap.valid H b) (hN : N ≤ b.arr) :
    GrowsTo N H b (appendAttrH h H b pfx a).1 (appendAttrH h H b pfx a).2
      (appendAttr h [] pfx a) := by
  match a with
  | (k, .group children) =>
    by_cases hlen : children.length = 0
    · simp only [appendAttrH, if_pos hlen]
      exact (GrowsTo.init hv hN).congr (by simp [appendAttr, hlen])
    · simp only [appendAttrH, if_neg hlen]
      exact (appendAttrsH_spec h N H b _ children hv hN).congr
        (by simp [appendAttr, hlen])
  | (k, .scalar v) =>
    simp only [appendAttrH]
    by_cases hz : isZeroScalarAttr (applyHook h k v) = true
    · simp only [if_pos hz]
      exact (GrowsTo.init hv hN).congr (by simp [appendAttr, hz])
    · simp only [if_neg hz]
      exact (appendKVH_spec N H b _ _ hv hN).congr (by simp [appendAttr, hz])

theorem appendAttrsH_spec (h : Handler) (N : Nat) (H : Heap) (b : GoSlice)
    (pfx : List Nat) (children : List JAttr) (hv : Heap.valid H b) (hN : N ≤ b.arr) :
    GrowsTo N H b (appendAttrsH h H b pfx children).1
      (appendAttrsH h H b pfx children).2 (appendAttrs h [] pfx children) := by
  match children with
  | [] =>
    simp only [appendAttrsH]
    exact (GrowsTo.init hv hN).congr (by simp [appendAttrs])
  | a :: rest =>
    simp only [appendAttrsH]
    have g1 := appendAttrH_spec h N H b pfx a hv hN
    have g2 := appendAttrsH_spec h N (appendAttrH h H b pfx a).1
      (appendAttrH h H b pfx a).2 pfx rest g1.valid2 g1.arrGe
    exact (g1.trans g2).congr (by
      rw [show appendAttrs h [] pfx (a :: rest) =
            appendAttrs h (appendAttr h [] pfx a) pfx rest from by
          simp [appendAttrs]]
      rw [appendAttrs_eq_append h (appendAttr h [] pfx a) pfx rest])

end

/-! ## Copy-on-extend derivations (`WithAttrs` lines 271-279, `WithGroup` lines 283-297) -/

/-- Model of `Handler.WithAttrs`: copy the handler, `slices.Clone` the
preformatted buffer, fold `appendAttr` over the new attributes with the
current prefix, and return the copy with the extended buffer. -/
def withAttrs (H : Heap) (h : Handler) (attrs : List JAttr) : Heap × Handler :=
  let r0 := goClone H h.preformatted
  let r := appendAttrsH h r0.1 r0.2 h.pfx attrs
  (r.1, { h with preformatted := r.2 })

/-- Model of `Handler.WithGroup`: an empty name returns the receiver;
otherwise a new handler with the (possibly hook-replaced) name appended
to the groups, the prefix extended by the name plus `_`, and the same
preformatted buffer (`slices.Clip` on `groups` gives the appended list
value semantics, modelled by plain list append). -/
def withGroup (h : Handler) (name : List Nat) : Handler :=
  if name = [] then h
  else
    { opts := h.opts,
      groups := h.groups ++ [replaceGroupName h name],
      pfx := h.pfx ++ replaceGroupName h name ++ [95],
      preformatted := h.preformatted }

/-- A one-array heap in which `handler0.preformatted` is valid. -/
def heap0 : Heap := { arrays := [[]] }

/-- A concrete attribute list for the C8 witness. -/
def attrs0 : List JAttr := [([65], JValue.scalar (JScalar.str [120]))]

/-- Claim C8: `WithAttrs` and `WithGroup` derive a new exporter without
mutating the receiver.  `WithAttrs` keeps the prefix and groups,
extends the pre-encoded buffer by the encoding of the new attributes,
and — because of `slices.Clone` — leaves the bytes the receiver's
`preformatted` slice denotes unchanged in the heap, so subsequent
encodes through the receiver are unaffected.  `WithGroup` with a
non-empty name returns a new handler with the extended prefix and
groups and the same buffer, touching no heap state by construction;
with an empty name it returns the receiver itself. -/
theorem with_derivations_copy_on_extend (H : Heap) (h : Handler)
    (attrs : List JAttr) (name : List Nat)
    (hv : Heap.valid H h.preformatted) :
    ((withAttrs H h attrs).1.read h.preformatted = H.read h.preformatted ∧
     (withAttrs H h attrs).2.pfx = h.pfx ∧
     (withAttrs H h attrs).2.groups = h.groups ∧
     (withAttrs H h attrs).1.read (withAttrs H h attrs).2.preformatted =
       H.read h.preformatted ++ appendAttrs h [] h.pfx attrs) ∧
    (name ≠ [] →
      withGroup h name =
        { opts := h.opts,
          groups := h.groups ++ [replaceGroupName h name],
          pfx := h.pfx ++ replaceGroupName h name ++ [95],
          preformatted := h.preformatted }) ∧
    (name = [] → withGroup h name = h) := by
  obtain ⟨hcv, hcarr, hcpres, hcread⟩ := goClone_spec H h.preformatted hv
  have harrGe : H.arrays.length ≤ (goClone H h.preformatted).2.arr := by
    rw [hcarr]
  have g := appendAttrsH_spec h H.arrays.length (goClone H h.preformatted).1
    (goClone H h.preformatted).2 h.pfx attrs hcv harrGe
  have ha : h.preformatted.arr < H.arrays.length := hv.1
  refine ⟨⟨?_, rfl, rfl, ?_⟩, ?_, ?_⟩
  · simp only [withAttrs, Heap.read]
    rw [g.preserved h.preformatted.arr ha, hcpres h.preformatted.arr ha]
  · simp only [withAttrs]
    rw [g.readEq, hcread]
  · intro hname
    simp [withGroup, hname]
  · intro hname
    simp [withGroup, hname]

/-- Witness for C8: the derivation theorem at a concrete heap, handler,
attribute list and group name. -/
theorem with_derivations_copy_on_extend_witness :
    ((withAttrs heap0 handler0 attrs0).1.read handler0.preformatted =
       heap0.read handler0.preformatted ∧
     (withAttrs heap0 handler0 attrs0).2.pfx = handler0.pfx ∧
     (withAttrs heap0 handler0 attrs0).2.groups = handler0.groups ∧
     (withAttrs heap0 handler0 attrs0).1.read
         (withAttrs heap0 handler0 attrs0).2.preformatted =
       heap0.read handler0.preformatted ++
         appendAttrs handler0 [] handler0.pfx attrs0) ∧
    ([71] ≠ ([] : List Nat) →
      withGroup handler0 [71] =
        { opts := handler0.opts,
          groups := handler0.groups ++ [replaceGroupName handler0 [71]],
          pfx := handler0.pfx ++ replaceGroupName handler0 [71] ++ [95],
          preformatted := handler0.preformatted }) ∧
    ([71] = ([] : List Nat) → withGroup handler0 [71] = handler0) :=
  with_derivations_copy_on_extend heap0 handler0 attrs0 [71] (by decide)
